import Mathlib

/-!
Shallow embedding of `utils/core/src/serde/byte_writer.rs`.

The `Vec<u8>` byte sink is embedded as `List Nat` (each element a byte value
below 256), machine integers as `Nat` with explicit width bounds (`v < 2 ^ 64`
for `usize`/`u64`), and wrapping machine arithmetic as arithmetic followed by
`% 2 ^ 64`.  Every writer operation of the `ByteWriter` trait, specialized to
the `Vec<u8>` implementation, becomes a function `List Nat → ... → List Nat`
returning the updated sink.
-/

namespace ByteWriter

/-- Little-endian byte decomposition: `toLeBytes n v` is the list of the `n`
low-order bytes of `v`, least significant first — the embedding of Rust's
`to_le_bytes` on an `n`-byte unsigned integer. -/
def toLeBytes : Nat → Nat → List Nat
  | 0, _ => []
  | n + 1, v => v % 256 :: toLeBytes n (v / 256)

/-- Reassemble a little-endian byte list into a number (used to state the
decoding contract). -/
def fromLeBytes : List Nat → Nat
  | [] => 0
  | b :: bs => b + 256 * fromLeBytes bs

/-- Number of binary digits of `n`, computed by structural recursion on a fuel
argument; `bitLenAux f n` is the bit length of `n` whenever `n < 2 ^ f`. -/
def bitLenAux : Nat → Nat → Nat
  | 0, _ => 0
  | f + 1, n => if n = 0 then 0 else bitLenAux f (n / 2) + 1

/-- Embedding of `u64::leading_zeros` (the source's `value.leading_zeros()`
with `value : usize` on a 64-bit platform): the count of leading zero bits of
a 64-bit value. -/
def u64_leading_zeros (v : Nat) : Nat := 64 - bitLenAux 64 v

/-- Embedding of `encoded_len` from `byte_writer.rs`:
`zeros.saturating_sub(1)` is Nat subtraction (which saturates), and
`core::cmp::min` is `min`. -/
def encoded_len (value : Nat) : Nat :=
  let zeros := u64_leading_zeros value
  let len := (zeros - 1) / 7
  9 - min len 8

/-- `ByteWriter::write_u8` for the `Vec<u8>` sink: `self.push(value)`. -/
def write_u8 (s : List Nat) (value : Nat) : List Nat := s ++ [value]

/-- `ByteWriter::write_bytes` for the `Vec<u8>` sink:
`self.extend_from_slice(values)`. -/
def write_bytes (s : List Nat) (values : List Nat) : List Nat := s ++ values

/-- `ByteWriter::write_bool`: `self.write_u8(val as u8)`. -/
def write_bool (s : List Nat) (val : Bool) : List Nat :=
  write_u8 s (if val then 1 else 0)

/-- `ByteWriter::write_u16`: `self.write_bytes(&value.to_le_bytes())`. -/
def write_u16 (s : List Nat) (value : Nat) : List Nat :=
  write_bytes s (toLeBytes 2 value)

/-- `ByteWriter::write_u32`: `self.write_bytes(&value.to_le_bytes())`. -/
def write_u32 (s : List Nat) (value : Nat) : List Nat :=
  write_bytes s (toLeBytes 4 value)

/-- `ByteWriter::write_u64`: `self.write_bytes(&value.to_le_bytes())`. -/
def write_u64 (s : List Nat) (value : Nat) : List Nat :=
  write_bytes s (toLeBytes 8 value)

/-- `ByteWriter::write_usize`: in the 9-byte special case it writes a zero
byte and then the 8 little-endian bytes of the value (`self.write(...)` on a
`[u8; 8]` delegates to `write_bytes`); otherwise it writes the first `length`
bytes of the little-endian representation of
`(value << 1 | 1) << (length - 1)`, computed in 64-bit machine arithmetic. -/
def write_usize (s : List Nat) (value : Nat) : List Nat :=
  let length := encoded_len value
  if length = 9 then
    write_bytes (write_u8 s 0) (toLeBytes 8 value)
  else
    write_bytes s ((toLeBytes 8 ((((value <<< 1) ||| 1) <<< (length - 1)) % 2 ^ 64)).take length)

/-- The byte sequence `write_usize` appends to a sink. -/
def write_usize_bytes (value : Nat) : List Nat := write_usize [] value

/-- Trailing-zero-bit count by structural recursion on fuel; for a non-zero
byte `b < 256`, `trailingZerosAux 8 b` is the number of trailing zero bits
of `b`. -/
def trailingZerosAux : Nat → Nat → Nat
  | 0, _ => 0
  | f + 1, n => if n % 2 = 1 then 0 else trailingZerosAux f (n / 2) + 1

/-- Modelled from the spec: the decoding contract of the external decoder
collaborator, which is not part of this fragment.  Read byte 0; if it is
non-zero, let `t` be its trailing-zero count, set `L = t + 1`, read `L` bytes
total as little-endian, and logically shift right by `L` bits; if byte 0 is
zero, read the next 8 bytes as the raw little-endian value with no shift. -/
def decode (bs : List Nat) : Nat :=
  let b0 := bs.headD 0
  if b0 = 0 then
    fromLeBytes ((bs.drop 1).take 8)
  else
    let L := trailingZerosAux 8 b0 + 1
    fromLeBytes (bs.take L) >>> L

/-- One invocation of a writer operation on a `Vec<u8>` sink. -/
inductive WriterOp where
  | u8 (value : Nat)
  | bytes (values : List Nat)
  | bool (val : Bool)
  | u16 (value : Nat)
  | u32 (value : Nat)
  | u64 (value : Nat)
  | usize (value : Nat)

/-- Apply one writer operation to a sink. -/
def applyOp (s : List Nat) : WriterOp → List Nat
  | .u8 value => write_u8 s value
  | .bytes values => write_bytes s values
  | .bool val => write_bool s val
  | .u16 value => write_u16 s value
  | .u32 value => write_u32 s value
  | .u64 value => write_u64 s value
  | .usize value => write_usize s value

/-- Apply a sequence of writer operations to a sink, in order. -/
def applyOps (s : List Nat) (ops : List WriterOp) : List Nat :=
  ops.foldl applyOp s

/-! ### Helper lemmas -/

theorem two_mul_lor_one (v : Nat) : (2 * v) ||| 1 = 2 * v + 1 := by
  apply Nat.eq_of_testBit_eq
  intro i
  cases i with
  | zero =>
    have e1 : 2 * v % 2 = 0 := by omega
    have e2 : (2 * v + 1) % 2 = 1 := by omega
    simp [Nat.testBit_lor, Nat.testBit_zero, e1, e2]
  | succ i =>
    rw [Nat.testBit_lor, Nat.testBit_succ, Nat.testBit_succ, Nat.testBit_succ]
    have h1 : 2 * v / 2 = v := by omega
    have h2 : (2 * v + 1) / 2 = v := by omega
    have h3 : (1 : Nat) / 2 = 0 := by omega
    rw [h1, h2, h3]
    simp

theorem marker_eq (v : Nat) : (v <<< 1) ||| 1 = 2 * v + 1 := by
  have h : v <<< 1 = 2 * v := by rw [Nat.shiftLeft_eq]; ring
  rw [h, two_mul_lor_one]

theorem toLeBytes_length (n v : Nat) : (toLeBytes n v).length = n := by
  induction n generalizing v with
  | zero => rfl
  | succ n ih => simp [toLeBytes, ih]

theorem toLeBytes_take {L n : Nat} (v : Nat) (h : L ≤ n) :
    (toLeBytes n v).take L = toLeBytes L v := by
  induction L generalizing n v with
  | zero => simp [toLeBytes]
  | succ L ih =>
    cases n with
    | zero => omega
    | succ n =>
      simp only [toLeBytes, List.take_succ_cons]
      rw [ih (v / 256) (by omega)]

theorem toLeBytes_drop {L n : Nat} (v : Nat) (h : L ≤ n) :
    (toLeBytes n v).drop L = toLeBytes (n - L) (v / 256 ^ L) := by
  induction L generalizing n v with
  | zero => simp [toLeBytes]
  | succ L ih =>
    cases n with
    | zero => omega
    | succ n =>
      simp only [toLeBytes, List.drop_succ_cons]
      rw [ih (v / 256) (by omega), Nat.div_div_eq_div_mul, ← pow_succ']
      simp

theorem toLeBytes_of_zero (n : Nat) : toLeBytes n 0 = List.replicate n 0 := by
  induction n with
  | zero => rfl
  | succ n ih => simp [toLeBytes, ih, List.replicate]

theorem fromLeBytes_toLeBytes (n v : Nat) :
    fromLeBytes (toLeBytes n v) = v % 256 ^ n := by
  induction n generalizing v with
  | zero => simp [toLeBytes, fromLeBytes, Nat.mod_one]
  | succ n ih =>
    simp only [toLeBytes, fromLeBytes, ih]
    conv_rhs => rw [pow_succ', Nat.mod_mul]

theorem bitLenAux_le_iff : ∀ f n k : Nat, n < 2 ^ f → (bitLenAux f n ≤ k ↔ n < 2 ^ k) := by
  intro f
  induction f with
  | zero =>
    intro n k h
    have hn : n = 0 := by simpa using h
    subst hn
    simp [bitLenAux, Nat.two_pow_pos]
  | succ f ih =>
    intro n k h
    by_cases hn : n = 0
    · subst hn
      simp [bitLenAux, Nat.two_pow_pos]
    · rw [bitLenAux, if_neg hn]
      cases k with
      | zero =>
        simp only [pow_zero]
        omega
      | succ k =>
        rw [Nat.succ_le_succ_iff]
        have h2 : n / 2 < 2 ^ f := by
          have hp : (2 : Nat) ^ (f + 1) = 2 ^ f * 2 := by rw [pow_succ]
          omega
        rw [ih (n / 2) k h2]
        have hp : (2 : Nat) ^ (k + 1) = 2 ^ k * 2 := by rw [pow_succ]
        omega

theorem bitLen_le {v : Nat} (k : Nat) (hv : v < 2 ^ 64) :
    bitLenAux 64 v ≤ k ↔ v < 2 ^ k := bitLenAux_le_iff 64 v k hv

theorem lt_bitLen {v : Nat} (k : Nat) (hv : v < 2 ^ 64) :
    k < bitLenAux 64 v ↔ 2 ^ k ≤ v := by
  constructor
  · intro h
    by_contra hc
    exact absurd ((bitLen_le k hv).mpr (by omega)) (by omega)
  · intro h
    by_contra hc
    exact absurd ((bitLen_le k hv).mp (by omega)) (by omega)

theorem lt_pow_bitLen {v : Nat} (hv : v < 2 ^ 64) : v < 2 ^ bitLenAux 64 v :=
  (bitLen_le _ hv).mp le_rfl

theorem bitLen_le_64 {v : Nat} (hv : v < 2 ^ 64) : bitLenAux 64 v ≤ 64 :=
  (bitLen_le 64 hv).mpr hv

theorem encoded_len_formula (v : Nat) :
    encoded_len v = 9 - min ((64 - bitLenAux 64 v - 1) / 7) 8 := rfl

theorem encoded_len_bounds (v : Nat) : 1 ≤ encoded_len v ∧ encoded_len v ≤ 9 := by
  rw [encoded_len_formula]
  omega

theorem lt_pow_of_encoded_len_le8 {v : Nat} (hv : v < 2 ^ 64)
    (h : encoded_len v ≤ 8) : v < 2 ^ (7 * encoded_len v) := by
  have hb := bitLen_le_64 hv
  have hv' := lt_pow_bitLen hv
  have hble : bitLenAux 64 v ≤ 7 * encoded_len v := by
    rw [encoded_len_formula] at h ⊢
    omega
  calc v < 2 ^ bitLenAux 64 v := hv'
    _ ≤ 2 ^ (7 * encoded_len v) := Nat.pow_le_pow_right (by norm_num) hble

theorem encoded_len_eq9_of_ge {v : Nat} (hv : v < 2 ^ 64) (h : 2 ^ 56 ≤ v) :
    encoded_len v = 9 := by
  have h1 := (lt_bitLen 56 hv).mpr h
  have hb := bitLen_le_64 hv
  rw [encoded_len_formula]
  omega

theorem marker_lt {v : Nat} (hv : v < 2 ^ 64) (h : encoded_len v ≤ 8) :
    (2 * v + 1) * 2 ^ (encoded_len v - 1) < 2 ^ (8 * encoded_len v) := by
  have hL1 := (encoded_len_bounds v).1
  have hvp := lt_pow_of_encoded_len_le8 hv h
  have h1 : 2 * v + 1 < 2 ^ (7 * encoded_len v + 1) := by
    have hp : (2 : Nat) ^ (7 * encoded_len v + 1) = 2 ^ (7 * encoded_len v) * 2 := by
      rw [pow_succ]
    omega
  calc (2 * v + 1) * 2 ^ (encoded_len v - 1)
      < 2 ^ (7 * encoded_len v + 1) * 2 ^ (encoded_len v - 1) :=
        (Nat.mul_lt_mul_right (Nat.two_pow_pos _)).mpr h1
    _ = 2 ^ (8 * encoded_len v) := by
        rw [← pow_add]
        congr 1
        omega

theorem marker_lt_64 {v : Nat} (hv : v < 2 ^ 64) (h : encoded_len v ≤ 8) :
    (2 * v + 1) * 2 ^ (encoded_len v - 1) < 2 ^ 64 :=
  lt_of_lt_of_le (marker_lt hv h)
    (Nat.pow_le_pow_right (by norm_num) (by omega))

theorem machine_marker_eq {v : Nat} (hv : v < 2 ^ 64) (h : encoded_len v ≤ 8) :
    (((v <<< 1) ||| 1) <<< (encoded_len v - 1)) % 2 ^ 64
      = (2 * v + 1) * 2 ^ (encoded_len v - 1) := by
  rw [marker_eq, Nat.shiftLeft_eq]
  exact Nat.mod_eq_of_lt (marker_lt_64 hv h)

theorem write_usize_bytes_short {v : Nat} (hv : v < 2 ^ 64) (h : encoded_len v ≤ 8) :
    write_usize_bytes v = toLeBytes (encoded_len v) ((2 * v + 1) * 2 ^ (encoded_len v - 1)) := by
  unfold write_usize_bytes write_usize
  rw [if_neg (by omega)]
  simp only [write_bytes, List.nil_append]
  rw [machine_marker_eq hv h, toLeBytes_take _ (by omega : encoded_len v ≤ 8)]

theorem write_usize_bytes_escape {v : Nat} (h : encoded_len v = 9) :
    write_usize_bytes v = 0 :: toLeBytes 8 v := by
  unfold write_usize_bytes write_usize
  rw [if_pos h]
  simp [write_bytes, write_u8]

theorem trailingZerosAux_pow_mul :
    ∀ k f c : Nat, k < f → trailingZerosAux f (2 ^ k * (2 * c + 1)) = k := by
  intro k
  induction k with
  | zero =>
    intro f c hf
    cases f with
    | zero => omega
    | succ f =>
      have h1 : 2 ^ 0 * (2 * c + 1) = 2 * c + 1 := by ring
      rw [h1, trailingZerosAux, if_pos (by omega)]
  | succ k ih =>
    intro f c hf
    cases f with
    | zero => omega
    | succ f =>
      have h1 : 2 ^ (k + 1) * (2 * c + 1) = 2 * (2 ^ k * (2 * c + 1)) := by ring
      rw [h1, trailingZerosAux, if_neg (by omega)]
      have h2 : 2 * (2 ^ k * (2 * c + 1)) / 2 = 2 ^ k * (2 * c + 1) := by omega
      rw [h2, ih f c (by omega)]

theorem head_toLeBytes {L : Nat} (hL : 1 ≤ L) (w : Nat) :
    (toLeBytes L w).headD 0 = w % 256 := by
  cases L with
  | zero => omega
  | succ L => simp [toLeBytes]

theorem mul_pow_mod_256 {L : Nat} (v : Nat) (h1 : 1 ≤ L) (h8 : L ≤ 8) :
    ((2 * v + 1) * 2 ^ (L - 1)) % 256 = 2 ^ (L - 1) * (2 * (v % 2 ^ (8 - L)) + 1) := by
  have h256 : (256 : Nat) = 2 ^ (L - 1 + (9 - L)) := by
    have he : L - 1 + (9 - L) = 8 := by omega
    rw [he]
    norm_num
  rw [h256, pow_add, mul_comm (2 * v + 1) (2 ^ (L - 1)), Nat.mul_mod_mul_left]
  congr 1
  have h9L : (2 : Nat) ^ (9 - L) = 2 * 2 ^ (8 - L) := by
    rw [← pow_succ']
    congr 1
    omega
  rw [h9L, Nat.mod_mul]
  have hdiv : (2 * v + 1) / 2 = v := by omega
  rw [hdiv]
  omega

theorem marker_lt_256pow {v : Nat} (hv : v < 2 ^ 64) (h8 : encoded_len v ≤ 8) :
    (2 * v + 1) * 2 ^ (encoded_len v - 1) < 256 ^ encoded_len v := by
  have hm := marker_lt hv h8
  have h256 : (256 : Nat) ^ encoded_len v = 2 ^ (8 * encoded_len v) := by
    rw [show (256 : Nat) = 2 ^ 8 by norm_num, ← pow_mul]
  omega

theorem drop_marker_zero {v : Nat} (hv : v < 2 ^ 64) (h8 : encoded_len v ≤ 8) :
    (toLeBytes 8 ((2 * v + 1) * 2 ^ (encoded_len v - 1))).drop (encoded_len v)
      = List.replicate (8 - encoded_len v) 0 := by
  rw [toLeBytes_drop _ h8, Nat.div_eq_of_lt (marker_lt_256pow hv h8), toLeBytes_of_zero]

theorem decode_write_usize {v : Nat} (hv : v < 2 ^ 64) :
    decode (write_usize_bytes v) = v := by
  obtain ⟨hL1, hL9⟩ := encoded_len_bounds v
  by_cases h9 : encoded_len v = 9
  · rw [write_usize_bytes_escape h9]
    simp only [decode, List.headD_cons, if_true]
    simp only [List.drop_succ_cons, List.drop_zero]
    rw [toLeBytes_take v le_rfl, fromLeBytes_toLeBytes]
    have h64 : (256 : Nat) ^ 8 = 2 ^ 64 := by norm_num
    rw [h64, Nat.mod_eq_of_lt hv]
  · have h8 : encoded_len v ≤ 8 := by omega
    rw [write_usize_bytes_short hv h8]
    have hhead : (toLeBytes (encoded_len v) ((2 * v + 1) * 2 ^ (encoded_len v - 1))).headD 0
        = 2 ^ (encoded_len v - 1) * (2 * (v % 2 ^ (8 - encoded_len v)) + 1) := by
      rw [head_toLeBytes hL1, mul_pow_mod_256 v hL1 h8]
    have hb0pos : 0 < 2 ^ (encoded_len v - 1) * (2 * (v % 2 ^ (8 - encoded_len v)) + 1) :=
      Nat.mul_pos (Nat.two_pow_pos _) (by omega)
    simp only [decode, hhead]
    rw [if_neg (by omega)]
    rw [trailingZerosAux_pow_mul (encoded_len v - 1) 8 _ (by omega)]
    have hLL : encoded_len v - 1 + 1 = encoded_len v := by omega
    rw [hLL, toLeBytes_take _ le_rfl, fromLeBytes_toLeBytes]
    rw [Nat.mod_eq_of_lt (marker_lt_256pow hv h8), Nat.shiftRight_eq_div_pow]
    have hpow : (2 : Nat) ^ encoded_len v = 2 ^ (encoded_len v - 1) * 2 := by
      rw [← pow_succ]
      congr 1
      omega
    rw [hpow, mul_comm (2 * v + 1) (2 ^ (encoded_len v - 1)),
      Nat.mul_div_mul_left _ _ (Nat.two_pow_pos _)]
    omega

theorem write_usize_eq_append (s : List Nat) (value : Nat) :
    write_usize s value = s ++ write_usize_bytes value := by
  by_cases h : encoded_len value = 9 <;>
    simp [write_usize, write_usize_bytes, write_bytes, write_u8, h]

theorem write_usize_bytes_length {v : Nat} (hv : v < 2 ^ 64) :
    (write_usize_bytes v).length = encoded_len v := by
  obtain ⟨h1, h9⟩ := encoded_len_bounds v
  by_cases h : encoded_len v = 9
  · rw [write_usize_bytes_escape h, h]
    simp [toLeBytes_length]
  · rw [write_usize_bytes_short hv (by omega)]
    exact toLeBytes_length _ _

theorem applyOp_eq_append (s : List Nat) (op : WriterOp) :
    ∃ t, applyOp s op = s ++ t := by
  cases op with
  | u8 value => exact ⟨[value], rfl⟩
  | bytes values => exact ⟨values, rfl⟩
  | bool val => exact ⟨[if val then 1 else 0], rfl⟩
  | u16 value => exact ⟨toLeBytes 2 value, rfl⟩
  | u32 value => exact ⟨toLeBytes 4 value, rfl⟩
  | u64 value => exact ⟨toLeBytes 8 value, rfl⟩
  | usize value => exact ⟨write_usize_bytes value, write_usize_eq_append s value⟩

theorem applyOps_eq_append (s : List Nat) (ops : List WriterOp) :
    ∃ t, applyOps s ops = s ++ t := by
  induction ops generalizing s with
  | nil => exact ⟨[], by simp [applyOps]⟩
  | cons op ops ih =>
    obtain ⟨u, hu⟩ := applyOp_eq_append s op
    obtain ⟨t, ht⟩ := ih (applyOp s op)
    refine ⟨u ++ t, ?_⟩
    show (op :: ops).foldl applyOp s = s ++ (u ++ t)
    rw [List.foldl_cons]
    show applyOps (applyOp s op) ops = s ++ (u ++ t)
    rw [ht, hu, List.append_assoc]

/-! ### Claim theorems -/

/-- C1: Round-trip.  For every 64-bit value `v`, applying the spec's decoding
contract (`decode`, modelled from the spec) to the byte sequence that
`write_usize v` appends to the sink recovers `v`: a non-zero first byte is
read via its trailing-zero count `t`, `L = t + 1` bytes little-endian, shifted
right by `L` bits; a zero first byte is followed by the raw 8-byte
little-endian value.  This includes `v = 0` and `v = 2 ^ 64 - 1`. -/
theorem vint64_round_trip (v : Nat) (hv : v < 2 ^ 64) :
    decode (write_usize_bytes v) = v :=
  decode_write_usize hv

/-- Witness for C1 at the concrete input `2 ^ 60 + 12345`. -/
theorem vint64_round_trip_witness :
    2 ^ 60 + 12345 < 2 ^ 64 ∧
    decode (write_usize_bytes (2 ^ 60 + 12345)) = 2 ^ 60 + 12345 :=
  ⟨by decide, vint64_round_trip (2 ^ 60 + 12345) (by decide)⟩

/-- C2: Length function correctness.  `encoded_len v` equals
`9 - min ((z - 1) / 7) 8` where `z` is the leading-zero count over width 64
(`z = 64` at `v = 0`, `z = 0` when the top bit is set, and the subtraction
saturates at 0), and it matches the boundary table: length 1 for
`v < 2 ^ 7`, length `k` for `2 ^ (7 (k - 1)) ≤ v < 2 ^ (7 k)` when
`2 ≤ k ≤ 8`, and length 9 for `2 ^ 56 ≤ v ≤ 2 ^ 64 - 1`. -/
theorem encoded_len_correct (v : Nat) (hv : v < 2 ^ 64) :
    encoded_len v = 9 - min ((u64_leading_zeros v - 1) / 7) 8 ∧
    (v = 0 → u64_leading_zeros v = 64) ∧
    (2 ^ 63 ≤ v → u64_leading_zeros v = 0) ∧
    (v < 2 ^ 7 → encoded_len v = 1) ∧
    (∀ k, 2 ≤ k → k ≤ 8 → 2 ^ (7 * (k - 1)) ≤ v → v < 2 ^ (7 * k) →
      encoded_len v = k) ∧
    (2 ^ 56 ≤ v → encoded_len v = 9) := by
  have hb := bitLen_le_64 hv
  refine ⟨rfl, ?_, ?_, ?_, ?_, fun h => encoded_len_eq9_of_ge hv h⟩
  · intro h0
    subst h0
    rfl
  · intro htop
    have h1 := (lt_bitLen 63 hv).mpr htop
    unfold u64_leading_zeros
    omega
  · intro h7
    have h1 := (bitLen_le 7 hv).mpr h7
    rw [encoded_len_formula]
    omega
  · intro k hk2 hk8 hlo hhi
    have h1 := (lt_bitLen (7 * (k - 1)) hv).mpr hlo
    have h2 := (bitLen_le (7 * k) hv).mpr hhi
    rw [encoded_len_formula]
    omega

/-- Witness for C2 at the concrete input `300` (boundary-table bucket
`k = 2`). -/
theorem encoded_len_correct_witness : (300 : Nat) < 2 ^ 64 ∧ encoded_len 300 = 2 :=
  ⟨by decide,
    (encoded_len_correct 300 (by decide)).2.2.2.2.1 2 (by decide) (by decide)
      (by decide) (by decide)⟩

/-- C3: Encoding byte layout.  With `L = encoded_len v`: if `L < 9` then
`write_usize v` appends exactly the first `L` bytes of the 8-byte
little-endian representation of `((v << 1) | 1) << (L - 1)` (stated in exact
arithmetic, `(2 v + 1) * 2 ^ (L - 1)`); if `L = 9` it appends a single `0x00`
byte followed by the full 8-byte little-endian representation of `v`. -/
theorem write_usize_layout (v : Nat) (hv : v < 2 ^ 64) :
    (encoded_len v < 9 →
      write_usize_bytes v
        = (toLeBytes 8 ((2 * v + 1) * 2 ^ (encoded_len v - 1))).take (encoded_len v)) ∧
    (encoded_len v = 9 → write_usize_bytes v = 0 :: toLeBytes 8 v) := by
  constructor
  · intro h
    rw [write_usize_bytes_short hv (by omega), toLeBytes_take _ (by omega)]
  · intro h
    exact write_usize_bytes_escape h

/-- Witness for C3 at the concrete input `128` (short branch). -/
theorem write_usize_layout_witness :
    (128 : Nat) < 2 ^ 64 ∧ encoded_len 128 < 9 ∧
    write_usize_bytes 128
      = (toLeBytes 8 ((2 * 128 + 1) * 2 ^ (encoded_len 128 - 1))).take (encoded_len 128) :=
  ⟨by decide, by decide, (write_usize_layout 128 (by decide)).1 (by decide)⟩

/-- C4: Purity and injectivity.  The byte sequence `write_usize` appends is a
function of the value alone (on any sink it appends `write_usize_bytes value`),
and distinct 64-bit values have distinct appended byte sequences. -/
theorem write_usize_pure_injective :
    (∀ (s : List Nat) (value : Nat), write_usize s value = s ++ write_usize_bytes value) ∧
    (∀ v1 v2 : Nat, v1 < 2 ^ 64 → v2 < 2 ^ 64 → v1 ≠ v2 →
      write_usize_bytes v1 ≠ write_usize_bytes v2) := by
  refine ⟨write_usize_eq_append, fun v1 v2 h1 h2 hne heq => hne ?_⟩
  rw [← decode_write_usize h1, ← decode_write_usize h2, heq]

/-- Witness for C4: determinism at sink `[7]`, value `5`, and injectivity at
the pair `1 ≠ 2`. -/
theorem write_usize_pure_injective_witness :
    write_usize [7] 5 = [7] ++ write_usize_bytes 5 ∧
    write_usize_bytes 1 ≠ write_usize_bytes 2 :=
  ⟨write_usize_pure_injective.1 [7] 5,
    write_usize_pure_injective.2 1 2 (by decide) (by decide) (by decide)⟩

/-- C5: Boundary vectors.  `write_usize` appends `[0x01]` for 0, `[0xFF]` for
127, `[0x02, 0x02]` for 128; `encoded_len (2 ^ 56 - 1) = 8`;
`encoded_len (2 ^ 56) = 9` with a `0x00` lead byte followed by the 8
little-endian bytes of `2 ^ 56`; and `2 ^ 64 - 1` encodes as
`[0x00, 0xFF, 0xFF, 0xFF, 0xFF, 0xFF, 0xFF, 0xFF, 0xFF]`. -/
theorem boundary_vectors :
    write_usize_bytes 0 = [0x01] ∧
    write_usize_bytes 127 = [0xFF] ∧
    write_usize_bytes 128 = [0x02, 0x02] ∧
    encoded_len (2 ^ 56 - 1) = 8 ∧
    encoded_len (2 ^ 56) = 9 ∧
    write_usize_bytes (2 ^ 56) = 0 :: toLeBytes 8 (2 ^ 56) ∧
    write_usize_bytes (2 ^ 64 - 1)
      = [0x00, 0xFF, 0xFF, 0xFF, 0xFF, 0xFF, 0xFF, 0xFF, 0xFF] := by
  decide

/-- C6: Length range and monotonicity.  `encoded_len v` lies in `[1, 9]`, and
is non-decreasing in the bit length of the argument (equivalently,
non-increasing leading-zero count). -/
theorem encoded_len_range_mono (v1 v2 : Nat) (h1 : v1 < 2 ^ 64) (h2 : v2 < 2 ^ 64) :
    1 ≤ encoded_len v1 ∧ encoded_len v1 ≤ 9 ∧
    (bitLenAux 64 v1 ≤ bitLenAux 64 v2 → encoded_len v1 ≤ encoded_len v2) ∧
    (u64_leading_zeros v2 ≤ u64_leading_zeros v1 → encoded_len v1 ≤ encoded_len v2) := by
  obtain ⟨ha, hc⟩ := encoded_len_bounds v1
  have hb1 := bitLen_le_64 h1
  have hb2 := bitLen_le_64 h2
  refine ⟨ha, hc, ?_, ?_⟩
  · intro h
    rw [encoded_len_formula v1, encoded_len_formula v2]
    omega
  · intro h
    unfold u64_leading_zeros at h
    rw [encoded_len_formula v1, encoded_len_formula v2]
    omega

/-- Witness for C6 at the concrete pair `5`, `1000`. -/
theorem encoded_len_range_mono_witness :
    bitLenAux 64 5 ≤ bitLenAux 64 1000 ∧ encoded_len 5 ≤ encoded_len 1000 :=
  ⟨by decide, (encoded_len_range_mono 5 1000 (by decide) (by decide)).2.2.1 (by decide)⟩

/-- C7: Safe truncation in the short branch.  For `L = encoded_len v < 9` the
value fits below `2 ^ 56`, the machine computation `((v << 1) | 1) << (L - 1)`
equals the exact arithmetic value `(2 v + 1) * 2 ^ (L - 1)`, which stays below
`2 ^ 64` (no set bit is shifted out, and the shift amounts `1` and `L - 1 ≤ 7`
are below the word width), and bytes `L` through `7` of its little-endian
representation are all zero, so emitting only the first `L` bytes discards
nothing. -/
theorem write_usize_short_no_overflow (v : Nat) (hv : v < 2 ^ 64)
    (h : encoded_len v < 9) :
    v < 2 ^ 56 ∧
    ((v <<< 1) ||| 1) <<< (encoded_len v - 1) = (2 * v + 1) * 2 ^ (encoded_len v - 1) ∧
    (2 * v + 1) * 2 ^ (encoded_len v - 1) < 2 ^ 64 ∧
    1 ≤ encoded_len v ∧ encoded_len v ≤ 8 ∧
    (toLeBytes 8 ((2 * v + 1) * 2 ^ (encoded_len v - 1))).drop (encoded_len v)
      = List.replicate (8 - encoded_len v) 0 := by
  obtain ⟨h1, h9⟩ := encoded_len_bounds v
  have h8 : encoded_len v ≤ 8 := by omega
  have hv56 : v < 2 ^ 56 :=
    lt_of_lt_of_le (lt_pow_of_encoded_len_le8 hv h8)
      (Nat.pow_le_pow_right (by norm_num) (by omega))
  refine ⟨hv56, ?_, marker_lt_64 hv h8, h1, h8, drop_marker_zero hv h8⟩
  rw [marker_eq, Nat.shiftLeft_eq]

/-- Witness for C7 at the concrete input `300`. -/
theorem write_usize_short_no_overflow_witness :
    (300 : Nat) < 2 ^ 64 ∧ encoded_len 300 < 9 ∧ (300 : Nat) < 2 ^ 56 :=
  ⟨by decide, by decide, (write_usize_short_no_overflow 300 (by decide) (by decide)).1⟩

/-- C8: Sink append-only invariant.  Every single writer operation and every
sequence of writer operations on a `Vec<u8>` sink only appends: the old
contents are a prefix of the new contents and the length never decreases. -/
theorem sink_append_only (s : List Nat) (op : WriterOp) (ops : List WriterOp) :
    (∃ t, applyOp s op = s ++ t) ∧
    (∃ t, applyOps s ops = s ++ t) ∧
    s.length ≤ (applyOps s ops).length := by
  refine ⟨applyOp_eq_append s op, applyOps_eq_append s ops, ?_⟩
  obtain ⟨t, ht⟩ := applyOps_eq_append s ops
  rw [ht]
  simp

/-- C9: Fixed-width and boolean layout.  `write_bool` appends exactly one byte
(1 for true, 0 for false); `write_u16` / `write_u32` / `write_u64` append
exactly the 2- / 4- / 8-byte little-endian representation of the value, with
no length prefix or compression; in particular `write_u16 0x1234` appends
`[0x34, 0x12]`. -/
theorem fixed_width_layout :
    (∀ s : List Nat, write_bool s true = s ++ [1]) ∧
    (∀ s : List Nat, write_bool s false = s ++ [0]) ∧
    (∀ (s : List Nat) (value : Nat),
      write_u16 s value = s ++ toLeBytes 2 value ∧ (toLeBytes 2 value).length = 2) ∧
    (∀ s : List Nat, write_u16 s 0x1234 = s ++ [0x34, 0x12]) ∧
    (∀ (s : List Nat) (value : Nat),
      write_u32 s value = s ++ toLeBytes 4 value ∧ (toLeBytes 4 value).length = 4) ∧
    (∀ (s : List Nat) (value : Nat),
      write_u64 s value = s ++ toLeBytes 8 value ∧ (toLeBytes 8 value).length = 8) := by
  refine ⟨fun s => rfl, fun s => rfl, fun s value => ⟨rfl, toLeBytes_length 2 value⟩,
    fun s => ?_, fun s value => ⟨rfl, toLeBytes_length 4 value⟩,
    fun s value => ⟨rfl, toLeBytes_length 8 value⟩⟩
  have h : toLeBytes 2 0x1234 = [0x34, 0x12] := by decide
  show write_bytes s (toLeBytes 2 0x1234) = s ++ [0x34, 0x12]
  rw [h]
  rfl

/-- C10: Output size equals predicted length.  `write_usize` appends exactly
`encoded_len v` bytes — `L` bytes in the short branch and `1 + 8 = 9` bytes in
the escape branch — so every encoded value occupies between 1 and 9 bytes. -/
theorem write_usize_output_length (v : Nat) (hv : v < 2 ^ 64) :
    (write_usize_bytes v).length = encoded_len v ∧
    1 ≤ (write_usize_bytes v).length ∧ (write_usize_bytes v).length ≤ 9 := by
  have h := write_usize_bytes_length hv
  obtain ⟨ha, hb⟩ := encoded_len_bounds v
  exact ⟨h, by omega, by omega⟩

/-- Witness for C10 at the concrete input `2 ^ 56` (escape branch). -/
theorem write_usize_output_length_witness :
    (2 : Nat) ^ 56 < 2 ^ 64 ∧ (write_usize_bytes (2 ^ 56)).length = encoded_len (2 ^ 56) :=
  ⟨by decide, (write_usize_output_length (2 ^ 56) (by decide)).1⟩

end ByteWriter
